import Mathlib

/-!
Verification of the resource_provisioner credential broker.

Shallow embedding of the repository's two source files:

* `src/rmapp/crypto.py` — the `decrypt_credentials` routine that base64-decodes
  an envelope, applies raw (textbook) RSA decryption with the owner's private
  key, locates a JSON object boundary in the decrypted bytes and parses the
  suffix as JSON.  The library functions it calls (`base64.b64decode`,
  `Crypto.PublicKey.RSA` decryption, `string.rfind`, Python slicing and
  `json.loads`/`json.dumps`) are modelled executably below; bytes are `Nat`
  values (0–255 for genuine bytes) and byte strings are `List Nat`.

* `src/tests/functional_tests.py` — the functional tests that pin down the
  behaviour of the HTTP layer (absent from src/): the credential CRUD
  endpoints and the cluster-creation authorization checks.  Those parts are
  modelled from the specification; each such definition carries a doc comment
  starting with `Modelled from the spec:`.
-/

/-! ## Byte-string arithmetic: PyCrypto number/byte conversions -/

/-- Model of PyCrypto `bytes_to_long`: big-endian base-256 value of a byte
string. -/
def bytes_to_long (bs : List Nat) : Nat :=
  bs.foldl (fun acc b => acc * 256 + b) 0

/-- Fuel-driven core of `long_to_bytes`, written with a bare `Nat.rec` so that
the kernel can evaluate it lazily on large fuel literals. -/
def long_to_bytesFuel (fuel : Nat) : Nat → List Nat :=
  Nat.rec (motive := fun _ => Nat → List Nat)
    (fun _ => [])
    (fun _ ih n => if n = 0 then [] else ih (n / 256) ++ [n % 256])
    fuel

/-- Model of PyCrypto `long_to_bytes` (with the leading-zero stripping the
library performs and no blocksize): the minimal big-endian byte string of a
natural number; `0` becomes the empty string.  `fuel = n` suffices because
the byte count of `n` is at most `n`. -/
def long_to_bytes (n : Nat) : List Nat := long_to_bytesFuel n n

theorem long_to_bytesFuel_zero (n : Nat) : long_to_bytesFuel 0 n = [] := rfl

theorem long_to_bytesFuel_succ (f n : Nat) :
    long_to_bytesFuel (f + 1) n =
      if n = 0 then [] else long_to_bytesFuel f (n / 256) ++ [n % 256] := rfl

/-- The fuel argument of `long_to_bytesFuel` is irrelevant as long as it
dominates the value being converted. -/
theorem long_to_bytesFuel_congr (f : Nat) : ∀ g n : Nat, n ≤ f → n ≤ g →
    long_to_bytesFuel f n = long_to_bytesFuel g n := by
  induction f with
  | zero =>
    intro g n hf hg
    have hn : n = 0 := Nat.le_zero.mp hf
    subst hn
    cases g with
    | zero => rfl
    | succ g => rw [long_to_bytesFuel_zero, long_to_bytesFuel_succ, if_pos rfl]
  | succ f ih =>
    intro g n hf hg
    by_cases hn : n = 0
    · subst hn
      cases g with
      | zero => rw [long_to_bytesFuel_zero, long_to_bytesFuel_succ, if_pos rfl]
      | succ g =>
        rw [long_to_bytesFuel_succ, long_to_bytesFuel_succ, if_pos rfl, if_pos rfl]
    · cases g with
      | zero => omega
      | succ g =>
        rw [long_to_bytesFuel_succ f n, long_to_bytesFuel_succ g n, if_neg hn, if_neg hn]
        have hdiv : n / 256 < n := Nat.div_lt_self (by omega) (by norm_num)
        rw [ih g (n / 256) (by omega) (by omega)]

/-- Unfolding step for `long_to_bytes` on a positive value. -/
theorem long_to_bytes_step (n : Nat) (hn : n ≠ 0) :
    long_to_bytes n = long_to_bytes (n / 256) ++ [n % 256] := by
  have hpos : 1 ≤ n := by omega
  have hdiv : n / 256 < n := Nat.div_lt_self (by omega) (by norm_num)
  calc long_to_bytes n = long_to_bytesFuel n n := rfl
    _ = long_to_bytesFuel ((n - 1) + 1) n := by congr 1; omega
    _ = long_to_bytesFuel (n - 1) (n / 256) ++ [n % 256] := by
        rw [long_to_bytesFuel_succ, if_neg hn]
    _ = long_to_bytesFuel (n / 256) (n / 256) ++ [n % 256] := by
        rw [long_to_bytesFuel_congr (n - 1) (n / 256) (n / 256) (by omega) le_rfl]
    _ = long_to_bytes (n / 256) ++ [n % 256] := rfl

theorem long_to_bytes_zero : long_to_bytes 0 = [] := rfl

/-! ## Modular exponentiation: Python three-argument pow -/

/-- Fuel-driven core of modular exponentiation, written with a bare `Nat.rec`
so that the kernel can evaluate it lazily on large fuel literals. -/
def powModFuel (fuel : Nat) : Nat → Nat → Nat → Nat :=
  Nat.rec (motive := fun _ => Nat → Nat → Nat → Nat)
    (fun _ _ n => 1 % n)
    (fun _ ih b e n =>
      if e = 0 then 1 % n
      else
        let h := ih ((b * b) % n) (e / 2) n
        if e % 2 = 1 then ((b % n) * h) % n else h)
    fuel

/-- Model of Python `pow(b, e, n)` (three-argument modular power), the
operation PyCrypto RSA key objects perform for raw encryption and decryption.
`fuel = e + 1` suffices because the recursion halves the exponent. -/
def powMod (b e n : Nat) : Nat := powModFuel (e + 1) b e n

theorem powModFuel_zero (b e n : Nat) : powModFuel 0 b e n = 1 % n := rfl

theorem powModFuel_succ (f b e n : Nat) :
    powModFuel (f + 1) b e n =
      if e = 0 then 1 % n
      else
        let h := powModFuel f ((b * b) % n) (e / 2) n
        if e % 2 = 1 then ((b % n) * h) % n else h := rfl

/-- The fuel core computes the mathematical modular power once the fuel
bounds the binary length of the exponent. -/
theorem powModFuel_correct (f : Nat) : ∀ b e n : Nat, e < 2 ^ f →
    powModFuel f b e n = b ^ e % n := by
  induction f with
  | zero =>
    intro b e n he
    have he0 : e = 0 := by simpa using he
    subst he0
    rw [powModFuel_zero, pow_zero]
  | succ f ih =>
    intro b e n he
    rw [powModFuel_succ]
    by_cases he0 : e = 0
    · rw [if_pos he0, he0, pow_zero]
    · rw [if_neg he0]
      have hlt : e / 2 < 2 ^ f := by
        have h2 : (2 : Nat) ^ (f + 1) = 2 ^ f * 2 := pow_succ 2 f
        omega
      have hrec : powModFuel f ((b * b) % n) (e / 2) n = (b * b) ^ (e / 2) % n := by
        rw [ih ((b * b) % n) (e / 2) n hlt, ← Nat.pow_mod]
      have hbb : (b * b) ^ (e / 2) = b ^ (2 * (e / 2)) := by
        rw [← pow_two, ← pow_mul]
      by_cases hodd : e % 2 = 1
      · obtain ⟨k, hk⟩ : ∃ k, e / 2 = k := ⟨e / 2, rfl⟩
        rw [if_pos hodd, hrec, hbb, hk]
        have hsplit : e = 2 * k + 1 := by omega
        subst hsplit
        rw [← Nat.mul_mod, ← pow_succ']
      · rw [if_neg hodd, hrec, hbb]
        have hsplit : 2 * (e / 2) = e := by omega
        rw [hsplit]

/-- Model of Python `pow(b, e, n)` agrees with the mathematical power. -/
theorem powMod_correct (b e n : Nat) : powMod b e n = b ^ e % n := by
  have he : e < 2 ^ (e + 1) := lt_of_lt_of_le (Nat.lt_two_pow e)
    (Nat.pow_le_pow_right (by norm_num) (by omega))
  exact powModFuel_correct (e + 1) b e n he

/-! ## Facts about byte/number conversions -/

theorem bytes_to_long_append (l : List Nat) (b : Nat) :
    bytes_to_long (l ++ [b]) = bytes_to_long l * 256 + b := by
  simp [bytes_to_long, List.foldl_append]

/-- Converting a number to bytes and back is the identity. -/
theorem bytes_to_long_long_to_bytes (n : Nat) :
    bytes_to_long (long_to_bytes n) = n := by
  induction n using Nat.strong_induction_on with
  | _ n ih =>
    by_cases hn : n = 0
    · subst hn; rfl
    · rw [long_to_bytes_step n hn, bytes_to_long_append,
        ih (n / 256) (Nat.div_lt_self (by omega) (by norm_num))]
      omega

/-- Every byte produced by `long_to_bytes` is an actual byte value. -/
theorem long_to_bytes_lt (n : Nat) : ∀ b ∈ long_to_bytes n, b < 256 := by
  induction n using Nat.strong_induction_on with
  | _ n ih =>
    by_cases hn : n = 0
    · subst hn; intro b hb; simp [long_to_bytes_zero] at hb
    · rw [long_to_bytes_step n hn]
      intro b hb
      rcases List.mem_append.mp hb with h | h
      · exact ih (n / 256) (Nat.div_lt_self (by omega) (by norm_num)) b h
      · have : b = n % 256 := by simpa using h
        subst this
        exact Nat.mod_lt n (by norm_num)

/-- Converting bytes to a number and back strips exactly the leading zero
bytes (PyCrypto's `long_to_bytes` produces the minimal representation). -/
theorem long_to_bytes_bytes_to_long (l : List Nat) (hl : ∀ b ∈ l, b < 256) :
    long_to_bytes (bytes_to_long l) = l.dropWhile (· = 0) := by
  induction l using List.reverseRecOn with
  | nil => rfl
  | append_singleton l' b ih =>
    have hl' : ∀ x ∈ l', x < 256 := fun x hx => hl x (List.mem_append_left _ hx)
    have hb : b < 256 := hl b (List.mem_append_right _ (by simp))
    rw [bytes_to_long_append]
    by_cases hv : bytes_to_long l' * 256 + b = 0
    · have hv0 : bytes_to_long l' = 0 := by omega
      have hb0 : b = 0 := by omega
      have hdrop : l'.dropWhile (· = 0) = [] := by
        rw [← ih hl', hv0, long_to_bytes_zero]
      rw [hv, long_to_bytes_zero, List.dropWhile_append, hdrop]
      simp [hb0]
    · rw [long_to_bytes_step _ hv]
      have hdiv : (bytes_to_long l' * 256 + b) / 256 = bytes_to_long l' := by omega
      have hmod : (bytes_to_long l' * 256 + b) % 256 = b := by omega
      rw [hdiv, hmod, ih hl', List.dropWhile_append]
      by_cases hdrop : l'.dropWhile (· = 0) = []
      · have hb0 : b ≠ 0 := by
          intro hb0
          apply hv
          have : bytes_to_long l' = 0 := by
            have := ih hl'
            rw [hdrop] at this
            have h2 := bytes_to_long_long_to_bytes (bytes_to_long l')
            rw [this] at h2
            simpa [bytes_to_long] using h2.symm
          omega
        simp [hdrop, hb0]
      · simp [hdrop]

/-! ## Model of base64 (Python `base64.b64encode` / `base64.b64decode`) -/

/-- The standard base64 alphabet, as ASCII codes. -/
def b64chars : List Nat :=
  [65, 66, 67, 68, 69, 70, 71, 72, 73, 74, 75, 76, 77, 78, 79, 80, 81, 82,
   83, 84, 85, 86, 87, 88, 89, 90,
   97, 98, 99, 100, 101, 102, 103, 104, 105, 106, 107, 108, 109, 110, 111,
   112, 113, 114, 115, 116, 117, 118, 119, 120, 121, 122,
   48, 49, 50, 51, 52, 53, 54, 55, 56, 57, 43, 47]

/-- ASCII code of the base64 digit for a six-bit value. -/
def sextetChar (i : Nat) : Nat := b64chars.getD i 65

/-- Six-bit value of a base64 alphabet character, if it is one. -/
def charSextet (c : Nat) : Option Nat := b64chars.findIdx? (· = c)

/-- Model of Python `base64.b64encode`: groups of three bytes become four
alphabet characters; a short final group is completed with `=` padding
(ASCII 61). -/
def b64encode : List Nat → List Nat
  | [] => []
  | [a] => [sextetChar (a / 4), sextetChar (a % 4 * 16), 61, 61]
  | [a, b] => [sextetChar (a / 4), sextetChar (a % 4 * 16 + b / 16),
      sextetChar (b % 16 * 4), 61]
  | a :: b :: c :: rest =>
    [sextetChar (a / 4), sextetChar (a % 4 * 16 + b / 16),
     sextetChar (b % 16 * 4 + c / 64), sextetChar (c % 64)] ++ b64encode rest

/-- Model of Python `base64.b64decode` on well-formed base64 text, with
`none` playing the role of `binascii.Error`.  (Python additionally discards
non-alphabet bytes before decoding; inputs exercised here contain none.) -/
def b64decode : List Nat → Option (List Nat)
  | [] => some []
  | a :: b :: c :: d :: rest =>
    match charSextet a, charSextet b with
    | some x, some y =>
      if c = 61 then
        if d = 61 ∧ rest = [] then some [x * 4 + y / 16] else none
      else
        match charSextet c with
        | some z =>
          if d = 61 then
            if rest = [] then some [x * 4 + y / 16, y % 16 * 16 + z / 4] else none
          else
            match charSextet d with
            | some w =>
              match b64decode rest with
              | some tail =>
                  some ([x * 4 + y / 16, y % 16 * 16 + z / 4, z % 4 * 64 + w] ++ tail)
              | none => none
            | none => none
        | none => none
    | _, _ => none
  | _ => none

theorem charSextet_sextetChar : ∀ i < 64, charSextet (sextetChar i) = some i := by
  decide

theorem sextetChar_ne_pad : ∀ i < 64, sextetChar i ≠ 61 := by
  decide

/-- Decoding inverts encoding on genuine byte strings. -/
theorem b64decode_b64encode (l : List Nat) (hl : ∀ b ∈ l, b < 256) :
    b64decode (b64encode l) = some l := by
  induction l using b64encode.induct with
  | case1 => rfl
  | case2 a =>
    have ha : a < 256 := hl a (by simp)
    rw [b64encode, b64decode,
      charSextet_sextetChar (a / 4) (by omega),
      charSextet_sextetChar (a % 4 * 16) (by omega)]
    simp only [if_pos rfl, and_self, if_pos]
    congr 2
    omega
  | case3 a b =>
    have ha : a < 256 := hl a (by simp)
    have hb : b < 256 := hl b (by simp)
    have h1 := charSextet_sextetChar (a / 4) (by omega)
    have h2 := charSextet_sextetChar (a % 4 * 16 + b / 16) (by omega)
    have h3 := charSextet_sextetChar (b % 16 * 4) (by omega)
    have h4 := sextetChar_ne_pad (b % 16 * 4) (by omega)
    simp only [b64encode, b64decode, h1, h2, h3, if_neg h4, if_pos rfl,
      and_self, if_true, eq_self_iff_true, Option.some.injEq, List.cons.injEq,
      and_true]
    omega
  | case4 a b c rest ih =>
    have ha : a < 256 := hl a (by simp)
    have hb : b < 256 := hl b (by simp)
    have hc : c < 256 := hl c (by simp)
    have hrest : ∀ x ∈ rest, x < 256 := fun x hx => hl x (by simp [hx])
    have h1 := charSextet_sextetChar (a / 4) (by omega)
    have h2 := charSextet_sextetChar (a % 4 * 16 + b / 16) (by omega)
    have h3 := charSextet_sextetChar (b % 16 * 4 + c / 64) (by omega)
    have h4 := charSextet_sextetChar (c % 64) (by omega)
    have h5 := sextetChar_ne_pad (b % 16 * 4 + c / 64) (by omega)
    have h6 := sextetChar_ne_pad (c % 64) (by omega)
    simp only [b64encode, List.cons_append, List.append_eq, List.nil_append,
      b64decode, h1, h2, h3, h4, if_neg h5, if_neg h6, ih hrest,
      Option.some.injEq, List.cons.injEq, and_true, eq_self_iff_true, if_true]
    omega

/-! ## Model of JSON values (the subset relevant to credential payloads)

Python `json` handles more (arrays, booleans, null, floats, escapes); the
payloads this repository deals in are flat string/number objects, and every
concrete input exercised below stays inside the modelled subset, on which the
model agrees with Python byte-for-byte. -/

mutual
inductive Json where
  | num (n : Nat)
  | str (s : List Nat)
  | obj (kvs : Members)
deriving DecidableEq
inductive Members where
  | nil
  | cons (k : List Nat) (v : Json) (rest : Members)
deriving DecidableEq
end

/-- Fuel-driven core of decimal printing, written with a bare `Nat.rec` so
that the kernel can evaluate it lazily on large fuel literals. -/
def natDigitsFuel (fuel : Nat) : Nat → List Nat :=
  Nat.rec (motive := fun _ => Nat → List Nat)
    (fun n => [48 + n % 10])
    (fun _ ih n => if n < 10 then [48 + n] else ih (n / 10) ++ [48 + n % 10])
    fuel

/-- ASCII decimal digits of a natural number, as `json.dumps` prints one. -/
def natDigits (n : Nat) : List Nat := natDigitsFuel n n

theorem natDigitsFuel_zero (n : Nat) : natDigitsFuel 0 n = [48 + n % 10] := rfl

theorem natDigitsFuel_succ (f n : Nat) :
    natDigitsFuel (f + 1) n =
      if n < 10 then [48 + n] else natDigitsFuel f (n / 10) ++ [48 + n % 10] := rfl

/-- The fuel argument of `natDigitsFuel` is irrelevant as long as it
dominates the value being printed. -/
theorem natDigitsFuel_congr (f : Nat) : ∀ g n : Nat, n ≤ f → n ≤ g →
    natDigitsFuel f n = natDigitsFuel g n := by
  induction f with
  | zero =>
    intro g n hf hg
    have hn : n = 0 := Nat.le_zero.mp hf
    subst hn
    cases g with
    | zero => rfl
    | succ g =>
      rw [natDigitsFuel_zero, natDigitsFuel_succ, if_pos (by norm_num)]
  | succ f ih =>
    intro g n hf hg
    by_cases hn : n < 10
    · have hmod : n % 10 = n := Nat.mod_eq_of_lt hn
      cases g with
      | zero => rw [natDigitsFuel_zero, natDigitsFuel_succ, if_pos hn, hmod]
      | succ g =>
        rw [natDigitsFuel_succ, natDigitsFuel_succ, if_pos hn, if_pos hn]
    · cases g with
      | zero => omega
      | succ g =>
        rw [natDigitsFuel_succ f n, natDigitsFuel_succ g n, if_neg hn, if_neg hn]
        have hdiv : n / 10 < n := Nat.div_lt_self (by omega) (by norm_num)
        rw [ih g (n / 10) (by omega) (by omega)]

theorem natDigits_small (n : Nat) (hn : n < 10) : natDigits n = [48 + n] := by
  cases n with
  | zero => rfl
  | succ m =>
    show natDigitsFuel (m + 1) (m + 1) = [48 + (m + 1)]
    rw [natDigitsFuel_succ, if_pos hn]

theorem natDigits_step (n : Nat) (hn : 10 ≤ n) :
    natDigits n = natDigits (n / 10) ++ [48 + n % 10] := by
  have hdiv : n / 10 < n := Nat.div_lt_self (by omega) (by norm_num)
  calc natDigits n = natDigitsFuel n n := rfl
    _ = natDigitsFuel ((n - 1) + 1) n := by congr 1; omega
    _ = natDigitsFuel (n - 1) (n / 10) ++ [48 + n % 10] := by
        rw [natDigitsFuel_succ, if_neg (by omega)]
    _ = natDigitsFuel (n / 10) (n / 10) ++ [48 + n % 10] := by
        rw [natDigitsFuel_congr (n - 1) (n / 10) (n / 10) (by omega) le_rfl]
    _ = natDigits (n / 10) ++ [48 + n % 10] := rfl

/-- Every byte printed by `natDigits` is an ASCII digit. -/
theorem natDigits_digit (n : Nat) : ∀ b ∈ natDigits n, 48 ≤ b ∧ b ≤ 57 := by
  induction n using Nat.strong_induction_on with
  | _ n ih =>
    by_cases hn : n < 10
    · rw [natDigits_small n hn]
      intro b hb
      have : b = 48 + n := by simpa using hb
      omega
    · rw [natDigits_step n (by omega)]
      intro b hb
      rcases List.mem_append.mp hb with h | h
      · exact ih (n / 10) (Nat.div_lt_self (by omega) (by norm_num)) b h
      · have : b = 48 + n % 10 := by simpa using h
        have := Nat.mod_lt n (show 0 < 10 by norm_num)
        omega

theorem natDigits_ne_nil (n : Nat) : natDigits n ≠ [] := by
  by_cases hn : n < 10
  · rw [natDigits_small n hn]; simp
  · rw [natDigits_step n (by omega)]; simp

mutual
/-- Model of Python `json.dumps` (default separators) on the modelled JSON
subset: objects print as ``{"k": v, ...}``. -/
def dumps : Json → List Nat
  | .num n => natDigits n
  | .str s => 34 :: s ++ [34]
  | .obj kvs => 123 :: dumpsMembers kvs ++ [125]
/-- Member list of an object as printed by `json.dumps`: pairs `"k": v`
joined by `", "`. -/
def dumpsMembers : Members → List Nat
  | .nil => []
  | .cons k v .nil => 34 :: k ++ [34] ++ [58, 32] ++ dumps v
  | .cons k v (.cons k2 v2 rest) =>
      34 :: k ++ [34] ++ [58, 32] ++ dumps v ++ [44, 32] ++
        dumpsMembers (.cons k2 v2 rest)
end

/-- A byte that may appear in a modelled JSON string literal: printable
ASCII, no quote, no backslash (so `json.dumps` prints it verbatim and
`json.loads` reads it back verbatim). -/
def okByte (b : Nat) : Bool := decide (32 ≤ b) && decide (b < 127) && b != 34 && b != 92

mutual
/-- Well-formedness of a modelled JSON value: all string content consists of
escape-free printable ASCII. -/
def wfJson : Json → Bool
  | .num _ => true
  | .str s => s.all okByte
  | .obj kvs => wfMembers kvs
/-- Well-formedness of an object member list. -/
def wfMembers : Members → Bool
  | .nil => true
  | .cons k v rest => k.all okByte && wfJson v && wfMembers rest
end

mutual
/-- Structural size of a JSON value, used as a fuel bound for the parser. -/
def jsize : Json → Nat
  | .num _ => 1
  | .str _ => 1
  | .obj kvs => msize kvs + 1
/-- Structural size of an object member list. -/
def msize : Members → Nat
  | .nil => 1
  | .cons _ v rest => jsize v + msize rest + 1
end

/-! ## Model of the JSON parser (`json.loads`) -/

/-- JSON whitespace per RFC and the Python scanner: space, tab, LF, CR. -/
def isWs (b : Nat) : Bool := b == 32 || b == 9 || b == 10 || b == 13

/-- Drop leading JSON whitespace. -/
def skipWs : List Nat → List Nat
  | [] => []
  | b :: r => if isWs b then skipWs r else b :: r

/-- ASCII digit test. -/
def isDigit (b : Nat) : Bool := decide (48 ≤ b) && decide (b ≤ 57)

/-- Consume a run of ASCII digits, accumulating their decimal value. -/
def parseDigits : List Nat → Nat → Nat × List Nat
  | [], acc => (acc, [])
  | b :: r, acc =>
    if isDigit b then parseDigits r (acc * 10 + (b - 48)) else (acc, b :: r)

/-- Parse a (non-negative decimal) JSON number. -/
def parseNumber : List Nat → Option (Nat × List Nat)
  | b :: r => if isDigit b then some (parseDigits (b :: r) 0) else none
  | [] => none

/-- Parse the body of a JSON string after the opening quote, up to the
closing quote.  Escapes and control characters are outside the modelled
subset and fail. -/
def parseStringBody : List Nat → Option (List Nat × List Nat)
  | [] => none
  | b :: r =>
    if b = 34 then some ([], r)
    else if b = 92 || b < 32 then none
    else
      match parseStringBody r with
      | some (s, rest) => some (b :: s, rest)
      | none => none

mutual
/-- Parse a JSON value at the head of the input (no leading whitespace).
The fuel bounds object nesting; `jsize` of the value always suffices. -/
def parseValue : Nat → List Nat → Option (Json × List Nat)
  | 0, _ => none
  | f + 1, s =>
    match s with
    | [] => none
    | b :: r =>
      if b = 123 then
        match skipWs r with
        | 125 :: r2 => some (.obj .nil, r2)
        | s2 => parseMembers f s2
      else if b = 34 then
        match parseStringBody r with
        | some (t, rest) => some (.str t, rest)
        | none => none
      else if isDigit b then
        match parseNumber (b :: r) with
        | some (n, rest) => some (.num n, rest)
        | none => none
      else none
/-- Parse a non-empty member list of a JSON object, including the closing
brace, as the Python scanner does: `"key"`, colon, value, then a comma and
further members or the closing brace. -/
def parseMembers : Nat → List Nat → Option (Json × List Nat)
  | 0, _ => none
  | f + 1, s =>
    match s with
    | 34 :: r =>
      match parseStringBody r with
      | some (k, r1) =>
        match skipWs r1 with
        | 58 :: r2 =>
          match parseValue f (skipWs r2) with
          | some (v, r3) =>
            match skipWs r3 with
            | 44 :: r4 =>
              match parseMembers f (skipWs r4) with
              | some (.obj kvs, r5) => some (.obj (.cons k v kvs), r5)
              | _ => none
            | 125 :: r4 => some (.obj (.cons k v .nil), r4)
            | _ => none
          | none => none
        | _ => none
      | none => none
    | _ => none
end

/-- Model of Python `json.loads` on the modelled subset: skip leading
whitespace, parse one value, and reject trailing non-whitespace (the
scanner's Extra data error).  `none` plays the role of `ValueError`. -/
def loads (s : List Nat) : Option Json :=
  match parseValue (s.length + 1) (skipWs s) with
  | some (j, rest) => if skipWs rest = [] then some j else none
  | none => none

/-! ## The printer/parser round trip -/

/-- A list on which a preceding number parse stops: empty or opening with a
non-digit. -/
def nonDigitStart : List Nat → Bool
  | [] => true
  | b :: _ => !isDigit b

theorem skipWs_cons_not (b : Nat) (r : List Nat) (h : isWs b = false) :
    skipWs (b :: r) = b :: r := by
  rw [skipWs, h]
  simp

theorem parseStringBody_ok (s : List Nat) (hs : ∀ b ∈ s, okByte b = true) :
    ∀ rest, parseStringBody (s ++ 34 :: rest) = some (s, rest) := by
  induction s with
  | nil =>
    intro rest
    rw [List.nil_append, parseStringBody, if_pos rfl]
  | cons b s ih =>
    intro rest
    have hb : okByte b = true := hs b (by simp)
    have hb1 : b ≠ 34 := by
      simp [okByte] at hb
      omega
    have hb2 : ¬(b = 92 ∨ b < 32) := by
      simp [okByte] at hb
      omega
    rw [List.cons_append, parseStringBody, if_neg hb1, if_neg (by simpa using hb2),
      ih (fun x hx => hs x (by simp [hx])) rest]

theorem parseDigits_run (ds : List Nat) (hds : ∀ b ∈ ds, 48 ≤ b ∧ b ≤ 57) :
    ∀ acc rest, nonDigitStart rest = true →
      parseDigits (ds ++ rest) acc =
        (ds.foldl (fun a d => a * 10 + (d - 48)) acc, rest) := by
  induction ds with
  | nil =>
    intro acc rest hrest
    rw [List.nil_append, List.foldl_nil]
    cases rest with
    | nil => rfl
    | cons b t =>
      have hb : isDigit b = false := by simpa [nonDigitStart] using hrest
      rw [parseDigits, hb]
      simp
  | cons d ds ih =>
    intro acc rest hrest
    have hd : 48 ≤ d ∧ d ≤ 57 := hds d (by simp)
    have hdig : isDigit d = true := by simp [isDigit]; omega
    rw [List.cons_append, parseDigits, hdig, List.foldl_cons]
    simp only [if_true]
    exact ih (fun x hx => hds x (by simp [hx])) _ rest hrest

theorem natDigits_foldl (n : Nat) :
    ∀ acc, (natDigits n).foldl (fun a d => a * 10 + (d - 48)) acc =
      acc * 10 ^ (natDigits n).length + n := by
  induction n using Nat.strong_induction_on with
  | _ n ih =>
    intro acc
    by_cases hn : n < 10
    · rw [natDigits_small n hn]
      simp only [List.foldl_cons, List.foldl_nil, List.length_cons,
        List.length_nil, pow_one]
      omega
    · rw [natDigits_step n (by omega), List.foldl_append,
        ih (n / 10) (Nat.div_lt_self (by omega) (by norm_num)) acc]
      simp only [List.foldl_cons, List.foldl_nil, List.length_append,
        List.length_cons, List.length_nil]
      have hmod := Nat.mod_lt n (show 0 < 10 by norm_num)
      have hsub : 48 + n % 10 - 48 = n % 10 := by omega
      rw [hsub, pow_succ]
      have hdm := Nat.div_add_mod n 10
      ring_nf
      omega

theorem parseNumber_natDigits (n : Nat) (rest : List Nat)
    (hrest : nonDigitStart rest = true) :
    parseNumber (natDigits n ++ rest) = some (n, rest) := by
  obtain ⟨d, ds, hds⟩ : ∃ d ds, natDigits n = d :: ds := by
    cases h : natDigits n with
    | nil => exact absurd h (natDigits_ne_nil n)
    | cons d ds => exact ⟨d, ds, rfl⟩
  have hd : 48 ≤ d ∧ d ≤ 57 := natDigits_digit n d (by rw [hds]; simp)
  have hdig : isDigit d = true := by simp [isDigit]; omega
  have hr := parseDigits_run (natDigits n) (natDigits_digit n) 0 rest hrest
  rw [natDigits_foldl n 0] at hr
  rw [hds] at hr ⊢
  rw [List.cons_append, parseNumber, hdig]
  simp only [if_true, ← List.cons_append, hr]
  simp

theorem dumps_cons (J : Json) : ∃ b t, dumps J = b :: t ∧ isWs b = false ∧
    b ≠ 0 := by
  cases J with
  | num n =>
    obtain ⟨d, ds, hds⟩ : ∃ d ds, natDigits n = d :: ds := by
      cases h : natDigits n with
      | nil => exact absurd h (natDigits_ne_nil n)
      | cons d ds => exact ⟨d, ds, rfl⟩
    have hd : 48 ≤ d ∧ d ≤ 57 := natDigits_digit n d (by rw [hds]; simp)
    refine ⟨d, ds, by rw [dumps, hds], by simp [isWs]; omega, by omega⟩
  | str s => exact ⟨34, s ++ [34], by rw [dumps, List.cons_append], by simp [isWs], by omega⟩
  | obj kvs =>
    exact ⟨123, dumpsMembers kvs ++ [125], by rw [dumps, List.cons_append],
      by simp [isWs], by omega⟩

theorem skipWs_dumps_append (J : Json) (X : List Nat) :
    skipWs (dumps J ++ X) = dumps J ++ X := by
  obtain ⟨b, t, hbt, hws, _⟩ := dumps_cons J
  rw [hbt, List.cons_append, skipWs_cons_not b (t ++ X) hws]


theorem skipWs_cons_ws (b : Nat) (r : List Nat) (h : isWs b = true) :
    skipWs (b :: r) = skipWs r := by
  rw [skipWs, h]
  simp

theorem parseValue_zero (s : List Nat) : parseValue 0 s = none := by
  rw [parseValue.eq_def]

theorem parseValue_succ (f : Nat) (b : Nat) (r : List Nat) :
    parseValue (f + 1) (b :: r) =
      (if b = 123 then
        match skipWs r with
        | 125 :: r2 => some (.obj .nil, r2)
        | s2 => parseMembers f s2
      else if b = 34 then
        match parseStringBody r with
        | some (t, rest) => some (.str t, rest)
        | none => none
      else if isDigit b then
        match parseNumber (b :: r) with
        | some (n, rest) => some (.num n, rest)
        | none => none
      else none) := by
  rw [parseValue.eq_def]

theorem parseMembers_succ (f : Nat) (s : List Nat) :
    parseMembers (f + 1) s =
      (match s with
      | 34 :: r =>
        match parseStringBody r with
        | some (k, r1) =>
          match skipWs r1 with
          | 58 :: r2 =>
            match parseValue f (skipWs r2) with
            | some (v, r3) =>
              match skipWs r3 with
              | 44 :: r4 =>
                match parseMembers f (skipWs r4) with
                | some (.obj kvs, r5) => some (.obj (.cons k v kvs), r5)
                | _ => none
              | 125 :: r4 => some (.obj (.cons k v .nil), r4)
              | _ => none
            | none => none
          | _ => none
        | none => none
      | _ => none) := by
  rw [parseMembers.eq_def]

theorem dumpsMembers_cons_head (k : List Nat) (v : Json) (kvs0 : Members) :
    ∃ t, dumpsMembers (.cons k v kvs0) = 34 :: t := by
  cases kvs0 with
  | nil =>
    refine ⟨k ++ 34 :: 58 :: 32 :: dumps v, ?_⟩
    rw [dumpsMembers]
    simp
  | cons k2 v2 rest2 =>
    refine ⟨k ++ 34 :: 58 :: 32 :: (dumps v ++ 44 :: 32 ::
      dumpsMembers (.cons k2 v2 rest2)), ?_⟩
    rw [dumpsMembers]
    simp

mutual

/-- Parsing inverts printing for a well-formed JSON value, given enough fuel
and a continuation that cannot extend a number literal. -/
theorem parseValue_dumps (J : Json) :
    ∀ f rest, wfJson J = true → jsize J ≤ f → nonDigitStart rest = true →
      parseValue f (dumps J ++ rest) = some (J, rest) := by
  cases J with
  | num n =>
    intro f rest hwf hf hrest
    cases f with
    | zero => simp [jsize] at hf
    | succ f =>
      obtain ⟨d, ds, hds⟩ : ∃ d ds, natDigits n = d :: ds := by
        cases h : natDigits n with
        | nil => exact absurd h (natDigits_ne_nil n)
        | cons d ds => exact ⟨d, ds, rfl⟩
      have hd : 48 ≤ d ∧ d ≤ 57 := natDigits_digit n d (by rw [hds]; simp)
      have h123 : d ≠ 123 := by omega
      have h34 : d ≠ 34 := by omega
      have hdig : isDigit d = true := by simp [isDigit]; omega
      have hnum := parseNumber_natDigits n rest hrest
      rw [hds, List.cons_append] at hnum
      rw [dumps, hds, List.cons_append, parseValue_succ]
      simp only [if_neg h123, if_neg h34, hdig, if_true, hnum]
  | str s =>
    intro f rest hwf hf hrest
    cases f with
    | zero => simp [jsize] at hf
    | succ f =>
      have hs : ∀ b ∈ s, okByte b = true := by
        rw [wfJson] at hwf
        simpa [List.all_eq_true] using hwf
      have hstr := parseStringBody_ok s hs rest
      have hshape : dumps (.str s) ++ rest = 34 :: (s ++ 34 :: rest) := by
        rw [dumps]
        simp
      rw [hshape, parseValue_succ]
      have h123 : (34 : Nat) ≠ 123 := by omega
      simp only [if_neg h123, if_pos rfl, if_true, hstr]
  | obj kvs =>
    intro f rest hwf hf hrest
    cases f with
    | zero => simp [jsize] at hf
    | succ f =>
      have hshape : dumps (.obj kvs) ++ rest =
          123 :: (dumpsMembers kvs ++ 125 :: rest) := by
        rw [dumps]
        simp
      rw [hshape, parseValue_succ, if_pos rfl]
      cases kvs with
      | nil =>
        rw [dumpsMembers, List.nil_append,
          skipWs_cons_not 125 rest (by simp [isWs])]
      | cons k v kvs0 =>
        have hmem : msize (.cons k v kvs0) ≤ f := by
          rw [jsize] at hf
          omega
        have hwfm : wfMembers (.cons k v kvs0) = true := by
          rw [wfJson] at hwf
          exact hwf
        have hrec := parseMembers_dumps k v kvs0 f rest hwfm hmem
        obtain ⟨t, hbt⟩ := dumpsMembers_cons_head k v kvs0
        rw [hbt] at hrec ⊢
        rw [List.cons_append] at hrec ⊢
        rw [skipWs_cons_not 34 _ (by simp [isWs])]
        split
        · next r2 heq => simp at heq
        · exact hrec
termination_by sizeOf J

/-- Parsing inverts printing for a non-empty well-formed member list followed
by the closing brace. -/
theorem parseMembers_dumps (k : List Nat) (v : Json) (kvs0 : Members) :
    ∀ f rest, wfMembers (.cons k v kvs0) = true → msize (.cons k v kvs0) ≤ f →
      parseMembers f (dumpsMembers (.cons k v kvs0) ++ 125 :: rest) =
        some (.obj (.cons k v kvs0), rest) := by
  intro f rest hwf hm
  have hsplit : (k.all okByte = true) ∧ wfJson v = true ∧ wfMembers kvs0 = true := by
    have h := hwf
    rw [wfMembers] at h
    simpa [Bool.and_eq_true, and_assoc] using h
  have hk : ∀ b ∈ k, okByte b = true := by
    have := hsplit.1
    simpa [List.all_eq_true] using this
  have hv : wfJson v = true := hsplit.2.1
  have hkvs0 : wfMembers kvs0 = true := hsplit.2.2
  cases f with
  | zero => simp [msize] at hm
  | succ f =>
    have hone : 1 ≤ msize kvs0 := by
      cases kvs0 with
      | nil => rw [msize]
      | cons a b c => rw [msize]; omega
    have hfv : jsize v ≤ f := by
      rw [msize] at hm
      omega
    cases kvs0 with
    | nil =>
      have hshape : dumpsMembers (.cons k v .nil) ++ 125 :: rest =
          34 :: (k ++ 34 :: (58 :: 32 :: (dumps v ++ 125 :: rest))) := by
        rw [dumpsMembers]
        simp
      have h1 := parseStringBody_ok k hk (58 :: 32 :: (dumps v ++ 125 :: rest))
      have h2 : skipWs (58 :: 32 :: (dumps v ++ 125 :: rest)) =
          58 :: 32 :: (dumps v ++ 125 :: rest) :=
        skipWs_cons_not _ _ (by simp [isWs])
      have h3 : skipWs (32 :: (dumps v ++ 125 :: rest)) = dumps v ++ 125 :: rest := by
        rw [skipWs_cons_ws _ _ (by simp [isWs]), skipWs_dumps_append]
      have h4 := parseValue_dumps v f (125 :: rest) hv hfv
        (by simp [nonDigitStart, isDigit])
      have h5 : skipWs (125 :: rest) = 125 :: rest :=
        skipWs_cons_not _ _ (by simp [isWs])
      rw [hshape]
      simp only [parseMembers_succ, h1, h2, h3, h4, h5]
    | cons k2 v2 rest2 =>
      have hshape : dumpsMembers (.cons k v (.cons k2 v2 rest2)) ++ 125 :: rest =
          34 :: (k ++ 34 :: (58 :: 32 :: (dumps v ++ 44 :: 32 ::
            (dumpsMembers (.cons k2 v2 rest2) ++ 125 :: rest)))) := by
        rw [dumpsMembers]
        simp
      have h1 := parseStringBody_ok k hk (58 :: 32 :: (dumps v ++ 44 :: 32 ::
        (dumpsMembers (.cons k2 v2 rest2) ++ 125 :: rest)))
      have h2 : skipWs (58 :: 32 :: (dumps v ++ 44 :: 32 ::
          (dumpsMembers (.cons k2 v2 rest2) ++ 125 :: rest))) =
          58 :: 32 :: (dumps v ++ 44 :: 32 ::
          (dumpsMembers (.cons k2 v2 rest2) ++ 125 :: rest)) :=
        skipWs_cons_not _ _ (by simp [isWs])
      have h3 : skipWs (32 :: (dumps v ++ 44 :: 32 ::
          (dumpsMembers (.cons k2 v2 rest2) ++ 125 :: rest))) =
          dumps v ++ 44 :: 32 :: (dumpsMembers (.cons k2 v2 rest2) ++ 125 :: rest) := by
        rw [skipWs_cons_ws _ _ (by simp [isWs]), skipWs_dumps_append]
      have h4 := parseValue_dumps v f (44 :: 32 ::
        (dumpsMembers (.cons k2 v2 rest2) ++ 125 :: rest)) hv hfv
        (by simp [nonDigitStart, isDigit])
      have h5 : skipWs (44 :: 32 :: (dumpsMembers (.cons k2 v2 rest2) ++ 125 :: rest)) =
          44 :: 32 :: (dumpsMembers (.cons k2 v2 rest2) ++ 125 :: rest) :=
        skipWs_cons_not _ _ (by simp [isWs])
      have hmem2 : msize (.cons k2 v2 rest2) ≤ f := by
        rw [msize] at hm
        omega
      have hrec := parseMembers_dumps k2 v2 rest2 f rest hkvs0 hmem2
      have h6 : skipWs (32 :: (dumpsMembers (.cons k2 v2 rest2) ++ 125 :: rest)) =
          dumpsMembers (.cons k2 v2 rest2) ++ 125 :: rest := by
        obtain ⟨t, ht⟩ := dumpsMembers_cons_head k2 v2 rest2
        rw [skipWs_cons_ws _ _ (by simp [isWs]), ht, List.cons_append,
          skipWs_cons_not 34 _ (by simp [isWs])]
      rw [hshape]
      simp only [parseMembers_succ, h1, h2, h3, h4, h5, h6, hrec]
termination_by sizeOf (Members.cons k v kvs0)

end

mutual

/-- The parser fuel `loads` supplies (input length plus one) dominates the
structural size of any value the input prints. -/
theorem jsize_le_dumps (J : Json) : jsize J ≤ (dumps J).length + 1 := by
  cases J with
  | num n =>
    rw [jsize]
    omega
  | str s =>
    rw [jsize]
    omega
  | obj kvs =>
    have ih := msize_le_dumpsMembers kvs
    rw [jsize, dumps]
    simp only [List.length_cons, List.length_append]
    omega
termination_by sizeOf J

/-- Companion bound for member lists. -/
theorem msize_le_dumpsMembers (kvs : Members) :
    msize kvs ≤ (dumpsMembers kvs).length + 2 := by
  cases kvs with
  | nil =>
    rw [msize, dumpsMembers]
    simp
  | cons k v rest =>
    cases rest with
    | nil =>
      have ihv := jsize_le_dumps v
      rw [msize, msize, dumpsMembers]
      simp only [List.length_cons, List.length_append]
      omega
    | cons k2 v2 rest2 =>
      have ihv := jsize_le_dumps v
      have ihr := msize_le_dumpsMembers (.cons k2 v2 rest2)
      rw [msize, dumpsMembers]
      simp only [List.length_cons, List.length_append]
      rw [msize] at ihr ⊢
      omega
termination_by sizeOf kvs

end

/-- Round trip: `json.loads` inverts `json.dumps` on every well-formed value
of the modelled subset. -/
theorem loads_dumps (J : Json) (hwf : wfJson J = true) :
    loads (dumps J) = some J := by
  rw [loads]
  have hskip : skipWs (dumps J) = dumps J := by
    have h := skipWs_dumps_append J []
    simpa using h
  have h := parseValue_dumps J ((dumps J).length + 1) [] hwf (jsize_le_dumps J)
    (by rw [nonDigitStart])
  rw [List.append_nil] at h
  rw [hskip, h]
  simp [skipWs]

/-! ## Model of the Python string helpers used by `decrypt_credentials` -/

/-- Scanning core of `string.rfind`: walks the list keeping the index of the
most recent occurrence of the needle. -/
def rfindAux : List Nat → Nat → Nat → Int → Int
  | [], _, _, best => best
  | b :: r, c, i, best => rfindAux r c (i + 1) (if b = c then (i : Int) else best)

/-- Model of Python 2 `string.rfind(s, sub)` for the single-character needle
the code uses: the highest index at which the character occurs, `-1` if it
does not occur. -/
def rfind (s : List Nat) (c : Nat) : Int := rfindAux s c 0 (-1)

theorem rfindAux_not_mem (l : List Nat) (c : Nat) (hc : c ∉ l) :
    ∀ i best, rfindAux l c i best = best := by
  induction l with
  | nil => intro i best; rfl
  | cons b r ih =>
    intro i best
    have hb : b ≠ c := fun h => hc (by simp [h])
    rw [rfindAux, if_neg hb]
    exact ih (fun h => hc (by simp [h])) (i + 1) best

theorem rfindAux_last (xs : List Nat) (c : Nat) (ys : List Nat) (hys : c ∉ ys) :
    ∀ i best, rfindAux (xs ++ c :: ys) c i best = (i : Int) + xs.length := by
  induction xs with
  | nil =>
    intro i best
    rw [List.nil_append, rfindAux, if_pos rfl,
      rfindAux_not_mem ys c hys (i + 1) i]
    simp
  | cons x xs ih =>
    intro i best
    rw [List.cons_append, rfindAux, ih (i + 1)]
    simp only [List.length_cons]
    push_cast
    ring

/-- Characterization of `rfind` when the needle is absent. -/
theorem rfind_not_mem (s : List Nat) (c : Nat) (hc : c ∉ s) : rfind s c = -1 :=
  rfindAux_not_mem s c hc 0 (-1)

/-- Characterization of `rfind` at the last occurrence of the needle. -/
theorem rfind_last (xs : List Nat) (c : Nat) (ys : List Nat) (hys : c ∉ ys) :
    rfind (xs ++ c :: ys) c = xs.length := by
  rw [rfind, rfindAux_last xs c ys hys 0 (-1)]
  simp

/-- Model of the Python slice `s[i:]` with a possibly negative start index:
a negative start counts from the end and clamps at zero. -/
def sliceFrom (s : List Nat) (i : Int) : List Nat :=
  if 0 ≤ i then s.drop i.toNat else s.drop (s.length - (-i).toNat)

theorem sliceFrom_nonneg (s : List Nat) (n : Nat) :
    sliceFrom s (n : Int) = s.drop n := by
  rw [sliceFrom, if_pos (by positivity)]
  simp

theorem sliceFrom_neg_one (s : List Nat) :
    sliceFrom s (-1) = s.drop (s.length - 1) := by
  rw [sliceFrom, if_neg (by norm_num)]
  rfl

/-- Slicing from the last occurrence keeps that occurrence and its suffix. -/
theorem sliceFrom_rfind_last (xs : List Nat) (c : Nat) (ys : List Nat)
    (hys : c ∉ ys) : sliceFrom (xs ++ c :: ys) (rfind (xs ++ c :: ys) c) = c :: ys := by
  rw [rfind_last xs c ys hys, sliceFrom_nonneg]
  simp

/-! ## The decrypt pipeline of src/rmapp/crypto.py -/

/-- RSA private-key material of a stored profile, as PyCrypto's `importKey`
recovers it from `profile.rsa_key`: the modulus and the private exponent,
which are all that raw decryption (`key.decrypt`) uses. -/
structure Profile where
  rsa_n : Nat
  rsa_d : Nat
deriving DecidableEq

/-- The error taxonomy of the specification (its section 7) for `decrypt`.
The Python code signals errors by exception: `Profile.DoesNotExist` maps to
`unknownOwner`, `binascii.Error` from `b64decode` to `malformedEnvelope`,
and `ValueError` from `json.loads` to `invalidPayload`.  The constructors
`decryptionFailed` and `noEmbeddedPayload` belong to the spec's taxonomy;
whether any execution of the code can produce them is settled by the
theorems below. -/
inductive CredError where
  | malformedEnvelope
  | unknownOwner
  | decryptionFailed
  | noEmbeddedPayload
  | invalidPayload
deriving DecidableEq

/-- Raw RSA decryption as PyCrypto's `key.decrypt` performs it: the
ciphertext bytes are read as a big-endian integer, raised to the private
exponent modulo the modulus (textbook RSA — no padding validation and no
failure path; the blinding the library applies is mathematically the
identity), and the result is rendered back as a minimal big-endian byte
string. -/
def rsaDecrypt (p : Profile) (to_decrypt : List Nat) : List Nat :=
  long_to_bytes (powMod (bytes_to_long to_decrypt) p.rsa_d p.rsa_n)

/-- Lines 17–21 of `src/rmapp/crypto.py`: find the last `{` (byte 123) in
the decrypted bytes with `string.rfind`, slice from that (possibly `-1`)
position, and `json.loads` the slice. -/
def scanParse (decrypted : List Nat) : Except CredError Json :=
  match loads (sliceFrom decrypted (rfind decrypted 123)) with
  | some j => .ok j
  | none => .error .invalidPayload

/-- Model of `decrypt_credentials(encrypted_credentials, user_id)` from
`src/rmapp/crypto.py`.  The Django ORM lookup `Profile.objects.get` is the
injected `profiles` map (`none` raising `DoesNotExist`); the remaining steps
follow the source line by line: base64-decode the envelope, decrypt with the
owner's key, then scan-and-parse the decrypted bytes. -/
def decrypt_credentials (profiles : String → Option Profile)
    (encrypted_credentials : List Nat) (user_id : String) :
    Except CredError Json :=
  match profiles user_id with
  | none => .error .unknownOwner
  | some profile =>
    match b64decode encrypted_credentials with
    | none => .error .malformedEnvelope
    | some to_decrypt => scanParse (rsaDecrypt profile to_decrypt)

/-- Modelled from the spec: the client-side encoder whose envelopes this
service decrypts (the encoder is not part of this repository).  Per the
data-flow description and section 8, it serializes the JSON payload, may
prepend padding bytes, encrypts with the owner's public key `(n, e)` under
the scheme matching the code's raw-RSA decryption, and base64-encodes the
result. -/
def encrypt_credentials (n e : Nat) (pad : List Nat) (J : Json) : List Nat :=
  b64encode (long_to_bytes (powMod (bytes_to_long (pad ++ dumps J)) e n))

/-! ## The ClusterAuthorizer (modelled from the spec) -/

/-- A credential record as CatalogLookup returns it: only the owning site
matters to the authorizer. -/
structure CredentialRecord where
  site : String
deriving DecidableEq

/-- An implementation record as CatalogLookup returns it: bound to one site. -/
structure ImplementationRecord where
  site : String
deriving DecidableEq

/-- The CatalogLookup collaborator: resolves credential and implementation
identifiers to their records, `none` meaning not found. -/
structure Catalog where
  getCredential : String → Option CredentialRecord
  getImplementation : String → Option ImplementationRecord

/-- Rejection reasons of the ClusterAuthorizer (spec section 4.2). -/
inductive RejectReason where
  | implementationRequired
  | credentialNotFound
  | implementationNotFound
  | siteMismatch
deriving DecidableEq

/-- Result of the ClusterAuthorizer. -/
inductive AuthResult where
  | ok
  | rejected (r : RejectReason)
deriving DecidableEq

/-- Modelled from the spec: the ClusterAuthorizer state machine guarding
POST /clusters/ (the Django view implementing it is not under src/; its
behaviour is fixed by spec section 4.2 and the functional tests, lines
131–171).  A missing `implementation` field rejects before any catalog
lookup; then the credential lookup, the implementation lookup and the site
comparison run strictly in that order, short-circuiting on the first
failure. -/
def authorize (cat : Catalog) (credentialId : String)
    (implementationId : Option String) : AuthResult :=
  match implementationId with
  | none => .rejected .implementationRequired
  | some implId =>
    match cat.getCredential credentialId with
    | none => .rejected .credentialNotFound
    | some cred =>
      match cat.getImplementation implId with
      | none => .rejected .implementationNotFound
      | some impl =>
        if cred.site = impl.site then .ok else .rejected .siteMismatch

/-! ## The credential HTTP endpoints (modelled from the spec) -/

/-- A stored credential row: metadata plus the opaque ciphertext envelope. -/
structure StoredCredential where
  id : Nat
  name : String
  site : String
  user : String
  created : String
  credentials : List Nat
deriving DecidableEq

/-- Modelled from the spec: the serializer every credential read path uses
(the Django serializer is not under src/; spec sections 3 and 6 fix the
response shape).  Only the metadata fields are rendered; the `credentials`
ciphertext in the row is never read. -/
def credentialSerializer (c : StoredCredential) : List (String × String) :=
  [("id", toString c.id), ("name", c.name), ("site", c.site),
   ("user", c.user), ("created", c.created)]

/-- Server-side state visible to the credential endpoints: the known sites
and the stored credential rows. -/
structure ServerState where
  sites : List String
  stored : List StoredCredential
  nextId : Nat
deriving DecidableEq

/-- Body of a POST /credentials/ request. -/
structure CredRequest where
  site : String
  name : String
  credentials : List Nat
deriving DecidableEq

/-- Modelled from the spec: POST /credentials/ (spec section 6; functional
tests lines 74–101).  Without an authenticated caller the request is
rejected with 403 before anything is stored; with one, the site must
resolve, and on success a 201 response carries only serialized metadata. -/
def postCredentials (auth : Option String) (req : CredRequest)
    (st : ServerState) :
    Nat × Option (List (String × String)) × ServerState :=
  match auth with
  | none => (403, none, st)
  | some user =>
    if st.sites.contains req.site then
      let row : StoredCredential :=
        ⟨st.nextId, req.name, req.site, user, "", req.credentials⟩
      (201, some (credentialSerializer row),
        ⟨st.sites, st.stored ++ [row], st.nextId + 1⟩)
    else (400, none, st)

/-- Modelled from the spec: GET /credentials/ (spec section 6; functional
tests lines 103–107).  Lists serialized metadata for every stored row; the
caller identity is not consulted. -/
def getCredentialList (auth : Option String) (st : ServerState) :
    Nat × List (List (String × String)) :=
  (200, st.stored.map credentialSerializer)

/-- Modelled from the spec: GET /credentials/{id}/ (spec section 6;
functional tests lines 109–114).  Returns serialized metadata of the row
with the requested id, 404 if absent; the caller identity is not
consulted. -/
def getCredentialDetail (auth : Option String) (st : ServerState) (i : Nat) :
    Nat × Option (List (String × String)) :=
  match st.stored.find? (fun c => c.id == i) with
  | some c => (200, some (credentialSerializer c))
  | none => (404, none)

/-! ## Helper characterizations of the decrypt pipeline -/

theorem scanParse_last_brace (xs ys : List Nat) (hys : 123 ∉ ys) :
    scanParse (xs ++ 123 :: ys) =
      (match loads (123 :: ys) with
       | some j => Except.ok j
       | none => Except.error CredError.invalidPayload) := by
  rw [scanParse, sliceFrom_rfind_last xs 123 ys hys]

theorem scanParse_no_brace (d : List Nat) (hbrace : 123 ∉ d) :
    scanParse d =
      (match loads (d.drop (d.length - 1)) with
       | some j => Except.ok j
       | none => Except.error CredError.invalidPayload) := by
  rw [scanParse, rfind_not_mem d 123 hbrace, sliceFrom_neg_one]

theorem scanParse_cases (d : List Nat) :
    (∃ j, scanParse d = .ok j) ∨ scanParse d = .error .invalidPayload := by
  rw [scanParse]
  cases h : loads (sliceFrom d (rfind d 123)) with
  | none => exact Or.inr rfl
  | some j => exact Or.inl ⟨j, rfl⟩

theorem decrypt_credentials_some (profiles : String → Option Profile)
    (enc : List Nat) (uid : String) (p : Profile) (c : List Nat)
    (hp : profiles uid = some p) (hb : b64decode enc = some c) :
    decrypt_credentials profiles enc uid = scanParse (rsaDecrypt p c) := by
  simp only [decrypt_credentials, hp, hb]

theorem decrypt_result_cases (profiles : String → Option Profile)
    (enc : List Nat) (uid : String) :
    decrypt_credentials profiles enc uid = .error .unknownOwner
    ∨ decrypt_credentials profiles enc uid = .error .malformedEnvelope
    ∨ decrypt_credentials profiles enc uid = .error .invalidPayload
    ∨ ∃ j, decrypt_credentials profiles enc uid = .ok j := by
  cases hp : profiles uid with
  | none =>
    left
    simp only [decrypt_credentials, hp]
  | some p =>
    cases hb : b64decode enc with
    | none =>
      right; left
      simp only [decrypt_credentials, hp, hb]
    | some c =>
      have h := decrypt_credentials_some profiles enc uid p c hp hb
      rcases scanParse_cases (rsaDecrypt p c) with ⟨j, hj⟩ | hj
      · right; right; right
        exact ⟨j, by rw [h, hj]⟩
      · right; right; left
        rw [h, hj]

theorem drop_length_sub_one (l : List Nat) (h : l ≠ []) :
    l.drop (l.length - 1) = [l.getLast h] := by
  induction l using List.reverseRecOn with
  | nil => exact absurd rfl h
  | append_singleton l0 b ih =>
    have hlen : (l0 ++ [b]).length - 1 = l0.length := by
      simp
    rw [hlen, List.drop_left, List.getLast_append]
    simp

/-! ## Claim C1: the authorization check order -/

/-- C1: `authorize(credentialId, implementationId)` evaluates the checks
CredentialExists, ImplementationExists, SiteConsistency strictly in that
order, short-circuiting on the first failure: an unresolvable credential id
rejects with CredentialNotFound regardless of the rest; otherwise an
unresolvable implementation id rejects with ImplementationNotFound; otherwise
differing sites reject with SiteMismatch; otherwise the result is Ok. -/
theorem claim_C1 (cat : Catalog) (cid iid : String) :
    (cat.getCredential cid = none →
      authorize cat cid (some iid) = .rejected .credentialNotFound)
    ∧ (∀ c, cat.getCredential cid = some c → cat.getImplementation iid = none →
      authorize cat cid (some iid) = .rejected .implementationNotFound)
    ∧ (∀ c i, cat.getCredential cid = some c →
      cat.getImplementation iid = some i → c.site ≠ i.site →
      authorize cat cid (some iid) = .rejected .siteMismatch)
    ∧ (∀ c i, cat.getCredential cid = some c →
      cat.getImplementation iid = some i → c.site = i.site →
      authorize cat cid (some iid) = .ok) := by
  refine ⟨?_, ?_, ?_, ?_⟩
  · intro h
    simp only [authorize, h]
  · intro c hc hi
    simp only [authorize, hc, hi]
  · intro c i hc hi hne
    simp only [authorize, hc, hi, if_neg hne]
  · intro c i hc hi heq
    simp only [authorize, hc, hi, if_pos heq]

/-- The catalog of the end-to-end scenario in the spec and the functional
tests: credential cred1 on site S1, implementation impl1 on S1,
implementation impl2 on S2. -/
def testCatalog : Catalog :=
  ⟨fun s => if s = "cred1" then some ⟨"S1"⟩ else none,
   fun s =>
     if s = "impl1" then some ⟨"S1"⟩
     else if s = "impl2" then some ⟨"S2"⟩ else none⟩

theorem claim_C1_witness :
    authorize testCatalog "cred1" (some "impl1") = .ok
    ∧ authorize testCatalog "cred1" (some "impl2") = .rejected .siteMismatch
    ∧ authorize testCatalog "garbage" (some "impl1") =
        .rejected .credentialNotFound :=
  ⟨(claim_C1 testCatalog "cred1" "impl1").2.2.2 ⟨"S1"⟩ ⟨"S1"⟩ (by decide)
      (by decide) rfl,
   (claim_C1 testCatalog "cred1" "impl2").2.2.1 ⟨"S1"⟩ ⟨"S2"⟩ (by decide)
      (by decide) (by decide),
   (claim_C1 testCatalog "garbage" "impl1").1 (by decide)⟩

/-! ## Claim C5: a missing implementation short-circuits everything -/

/-- C5: a cluster-creation request without an implementation is rejected
with ImplementationRequired before any catalog lookup: the result is the
same for every catalog state and every credential id, so in particular it
does not depend on whether the named credential exists. -/
theorem claim_C5 (cat cat2 : Catalog) (cid cid2 : String) :
    authorize cat cid none = .rejected .implementationRequired
    ∧ authorize cat cid none = authorize cat2 cid2 none :=
  ⟨rfl, rfl⟩

/-! ## Claim C6: credential read paths never expose the payload -/

/-- C6: for every stored credential and every read path — the creation
response, the list endpoint and the single-credential endpoint — the
response carries exactly the metadata fields (id, name, site, user,
created), never a `credentials` field, and its content is independent of
the stored ciphertext. -/
theorem claim_C6 :
    (∀ c : StoredCredential,
      (credentialSerializer c).map Prod.fst =
        ["id", "name", "site", "user", "created"]
      ∧ "credentials" ∉ (credentialSerializer c).map Prod.fst)
    ∧ (∀ (c : StoredCredential) (x : List Nat),
      credentialSerializer { c with credentials := x } = credentialSerializer c)
    ∧ (∀ (auth : Option String) (req : CredRequest) (st : ServerState)
        (body : List (String × String)),
        (postCredentials auth req st).2.1 = some body →
        ∃ c, body = credentialSerializer c)
    ∧ (∀ (auth : Option String) (st : ServerState),
        (getCredentialList auth st).2 = st.stored.map credentialSerializer)
    ∧ (∀ (auth : Option String) (st : ServerState) (i : Nat)
        (body : List (String × String)),
        (getCredentialDetail auth st i).2 = some body →
        ∃ c, body = credentialSerializer c) := by
  refine ⟨?_, ?_, ?_, ?_, ?_⟩
  · intro c
    constructor
    · rfl
    · simp [credentialSerializer]
  · intro c x
    rfl
  · intro auth req st body h
    cases auth with
    | none => simp [postCredentials] at h
    | some user =>
      simp only [postCredentials] at h
      split at h
      · refine ⟨⟨st.nextId, req.name, req.site, user, "", req.credentials⟩, ?_⟩
        simpa using h.symm
      · simp at h
  · intro auth st
    rfl
  · intro auth st i body h
    cases hf : st.stored.find? (fun c => c.id == i) with
    | none => simp [getCredentialDetail, hf] at h
    | some c =>
      refine ⟨c, ?_⟩
      simp only [getCredentialDetail, hf, Option.some.injEq] at h
      exact h.symm

/-- A server state with one stored credential row, as after the functional
test's create step. -/
def testState : ServerState :=
  ⟨["some-site-id"],
   [⟨0, "me@site", "some-site-id", "alice", "", [1, 2, 3]⟩], 1⟩

theorem claim_C6_witness :
    "credentials" ∉ (credentialSerializer
      ⟨0, "me@site", "some-site-id", "alice", "", [1, 2, 3]⟩).map Prod.fst
    ∧ (∃ c, [("id", "0"), ("name", "me@site"), ("site", "some-site-id"),
        ("user", "alice"), ("created", "")] = credentialSerializer c) :=
  ⟨(claim_C6.1 ⟨0, "me@site", "some-site-id", "alice", "", [1, 2, 3]⟩).2,
   claim_C6.2.2.2.2 none testState 0
     [("id", "0"), ("name", "me@site"), ("site", "some-site-id"),
      ("user", "alice"), ("created", "")] (by decide)⟩

/-! ## Claim C9: reads need no identity, creation does -/

/-- C9: the credential read endpoints require no caller identity — both the
list and the detail endpoint answer 200 without an authorization header
(the detail endpoint whenever the row exists) — while POST /credentials/
without the header is rejected with 403 and leaves the stored state
unchanged, so no credential is created. -/
theorem claim_C9 (st : ServerState) (req : CredRequest) (i : Nat) :
    (getCredentialList none st).1 = 200
    ∧ (∀ c, st.stored.find? (fun x => x.id == i) = some c →
        (getCredentialDetail none st i).1 = 200)
    ∧ postCredentials none req st = (403, none, st) := by
  refine ⟨rfl, ?_, rfl⟩
  intro c hc
  simp [getCredentialDetail, hc]

theorem claim_C9_witness :
    (getCredentialList none testState).1 = 200
    ∧ (getCredentialDetail none testState 0).1 = 200
    ∧ postCredentials none ⟨"some-site-id", "me@site2", [4, 5]⟩ testState =
        (403, none, testState) :=
  ⟨(claim_C9 testState ⟨"some-site-id", "me@site2", [4, 5]⟩ 0).1,
   (claim_C9 testState ⟨"some-site-id", "me@site2", [4, 5]⟩ 0).2.1
     ⟨0, "me@site", "some-site-id", "alice", "", [1, 2, 3]⟩ (by decide),
   (claim_C9 testState ⟨"some-site-id", "me@site2", [4, 5]⟩ 0).2.2⟩

/-! ## Concrete RSA material for the crypto claims

Key pair 1 (the owner's key): a 102-bit modulus with public exponent 65537.
Key pair 2 belongs to a different owner.  Both satisfy the RSA equation,
checked where used. -/

def rsaN1 : Nat := 2383716937157354776720529146567

def rsaE1 : Nat := 65537

def rsaD1 : Nat := 69040267831619485835370415505

def rsaN2 : Nat := 2968881938691978458395828450601

def rsaD2 : Nat := 102515828116330307151228624881

def profile1 : Profile := ⟨rsaN1, rsaD1⟩

def profile2 : Profile := ⟨rsaN2, rsaD2⟩

/-- A profile store resolving every user id to owner 1's key. -/
def profiles1 : String → Option Profile := fun _ => some profile1

/-- A profile store resolving every user id to owner 2's key. -/
def profiles2 : String → Option Profile := fun _ => some profile2

/-- Ciphertext whose decryption under key 1 is the bytes of `x{"a": {}}`. -/
def cipherC3c : List Nat := [13, 24, 66, 220, 64, 1, 18, 88, 220, 37, 134, 22, 3]

def envC3c : List Nat := [68, 82, 104, 67, 51, 69, 65, 66, 69, 108, 106, 99, 74, 89, 89, 87, 65, 119, 61, 61]

/-- Ciphertext whose decryption under key 1 is the bytes of `x{"a": 7}`. -/
def cipherC3w : List Nat := [15, 35, 5, 160, 211, 185, 220, 173, 179, 171, 211, 29, 141]

def envC3w : List Nat := [68, 121, 77, 70, 111, 78, 79, 53, 51, 75, 50, 122, 113, 57, 77, 100, 106, 81, 61, 61]

/-- Ciphertext whose decryption under key 1 is the bytes of `abc7`. -/
def cipherC4c : List Nat := [26, 11, 235, 196, 218, 239, 43, 161, 53, 8, 213, 158, 246]

def envC4c : List Nat := [71, 103, 118, 114, 120, 78, 114, 118, 75, 54, 69, 49, 67, 78, 87, 101, 57, 103, 61, 61]

/-- Ciphertext whose decryption under key 1 is the bytes of `abx`. -/
def cipherC4w : List Nat := [11, 163, 171, 27, 228, 190, 249, 242, 33, 25, 101, 151, 212]

def envC4w : List Nat := [67, 54, 79, 114, 71, 43, 83, 43, 43, 102, 73, 104, 71, 87, 87, 88, 49, 65, 61, 61]

/-- Ciphertext whose decryption under key 1 is the bytes of `zzzq`. -/
def cipherC7c : List Nat := [24, 132, 25, 175, 27, 58, 91, 32, 136, 167, 34, 156, 151]

def envC7c : List Nat := [71, 73, 81, 90, 114, 120, 115, 54, 87, 121, 67, 73, 112, 121, 75, 99, 108, 119, 61, 61]

/-- Ciphertext whose decryption under key 1 is the bytes of `{xyz`. -/
def cipherC7b : List Nat := [14, 217, 43, 22, 212, 176, 30, 55, 29, 190, 193, 137, 22]

def envC7b : List Nat := [68, 116, 107, 114, 70, 116, 83, 119, 72, 106, 99, 100, 118, 115, 71, 74, 70, 103, 61, 61]

/-- Ciphertext whose decryption under key 1 is the bytes of `ab7`. -/
def cipherC10w : List Nat := [27, 186, 96, 22, 188, 165, 106, 72, 114, 19, 34, 49, 92]

def envC10w : List Nat := [71, 55, 112, 103, 70, 114, 121, 108, 97, 107, 104, 121, 69, 121, 73, 120, 88, 65, 61, 61]

/-- Ciphertext of the payload `{"u": "p"}` under key 1. -/
def cipherC8 : List Nat := [29, 39, 102, 83, 42, 215, 151, 192, 102, 186, 76, 253, 127]

def envC8 : List Nat := [72, 83, 100, 109, 85, 121, 114, 88, 108, 56, 66, 109, 117, 107, 122, 57, 102, 119, 61, 61]

deriving instance DecidableEq for Except

/-! ## Claim C10: behaviour when the decrypted bytes hold no brace -/

/-- C10: when the decrypted byte sequence contains no `{`, `rfind` yields
`-1`, so `decrypt_credentials` slices the decrypted bytes from index `-1` —
keeping only the final byte — and hands that single byte to the JSON
parser: a byte that is itself a valid JSON document (a digit) is returned
as a value without error, and any other byte raises the same JSON parse
error as the invalid-payload case. -/
theorem claim_C10 (profiles : String → Option Profile) (enc : List Nat)
    (uid : String) (p : Profile) (c d : List Nat)
    (hp : profiles uid = some p) (hb : b64decode enc = some c)
    (hd : rsaDecrypt p c = d) (hbrace : 123 ∉ d) :
    decrypt_credentials profiles enc uid =
      (match loads (d.drop (d.length - 1)) with
       | some j => Except.ok j
       | none => Except.error CredError.invalidPayload)
    ∧ (∀ h : d ≠ [], d.drop (d.length - 1) = [d.getLast h]) := by
  constructor
  · rw [decrypt_credentials_some profiles enc uid p c hp hb, hd,
      scanParse_no_brace d hbrace]
  · intro h
    exact drop_length_sub_one d h

set_option maxRecDepth 4000000 in
theorem claim_C10_witness :
    decrypt_credentials profiles1 envC10w "alice" = .ok (.num 7) := by
  have h := (claim_C10 profiles1 envC10w "alice" profile1 cipherC10w
    [97, 98, 55] rfl (by decide) (by decide) (by decide)).1
  rw [h]
  decide

/-! ## Claim C4: the no-brace case does not fail explicitly -/

set_option maxRecDepth 4000000 in
theorem claim_C4_counterexample :
    123 ∉ rsaDecrypt profile1 cipherC4c
    ∧ b64decode envC4c = some cipherC4c
    ∧ profiles1 "alice" = some profile1
    ∧ decrypt_credentials profiles1 envC4c "alice" = .ok (.num 7) := by
  decide

/-- C4 as amended: on an input whose decrypted bytes contain no `{`,
`decrypt_credentials` does not fail with a NoEmbeddedPayload error; it
json-parses the final decrypted byte, returning that value when the byte is
valid JSON and otherwise failing with the ordinary JSON parse error
(InvalidPayload). -/
theorem claim_C4_amended (profiles : String → Option Profile) (enc : List Nat)
    (uid : String) (p : Profile) (c d : List Nat)
    (hp : profiles uid = some p) (hb : b64decode enc = some c)
    (hd : rsaDecrypt p c = d) (hbrace : 123 ∉ d) :
    decrypt_credentials profiles enc uid =
      (match loads (d.drop (d.length - 1)) with
       | some j => Except.ok j
       | none => Except.error CredError.invalidPayload)
    ∧ decrypt_credentials profiles enc uid ≠ .error .noEmbeddedPayload := by
  have h := decrypt_credentials_some profiles enc uid p c hp hb
  rw [h, hd, scanParse_no_brace d hbrace]
  constructor
  · rfl
  · cases hl : loads (d.drop (d.length - 1)) <;> simp

set_option maxRecDepth 4000000 in
theorem claim_C4_witness :
    decrypt_credentials profiles1 envC4w "alice" = .error .invalidPayload := by
  have h := (claim_C4_amended profiles1 envC4w "alice" profile1 cipherC4w
    [97, 98, 120] rfl (by decide) (by decide) (by decide)).1
  rw [h]
  decide

/-! ## Claim C3: which brace the scan locates -/

/-- Written from the claim's words (C3): locate the FIRST occurrence of `{`
in the decrypted bytes and parse from that offset onward.  This is the
behaviour the claim attributes to the code; the code itself uses
`string.rfind`. -/
def scanParseFirst (decrypted : List Nat) : Except CredError Json :=
  match loads (decrypted.drop (decrypted.findIdx (· == 123))) with
  | some j => .ok j
  | none => .error .invalidPayload

set_option maxRecDepth 4000000 in
theorem claim_C3_counterexample :
    rsaDecrypt profile1 cipherC3c = [120, 123, 34, 97, 34, 58, 32, 123, 125, 125]
    ∧ scanParseFirst [120, 123, 34, 97, 34, 58, 32, 123, 125, 125] =
        .ok (.obj (.cons [97] (.obj .nil) .nil))
    ∧ b64decode envC3c = some cipherC3c
    ∧ decrypt_credentials profiles1 envC3c "alice" = .error .invalidPayload := by
  decide

/-- C3 as amended: for every input whose decrypted byte sequence contains at
least one `{`, `decrypt_credentials` locates the LAST occurrence of `{` in
the decrypted bytes and parses the bytes from that offset onward as the
JSON document it returns (failing with the JSON parse error when that
suffix is not a valid document). -/
theorem claim_C3_amended (profiles : String → Option Profile) (enc : List Nat)
    (uid : String) (p : Profile) (c : List Nat) (xs ys : List Nat)
    (hp : profiles uid = some p) (hb : b64decode enc = some c)
    (hd : rsaDecrypt p c = xs ++ 123 :: ys) (hys : 123 ∉ ys) :
    decrypt_credentials profiles enc uid =
      (match loads (123 :: ys) with
       | some j => Except.ok j
       | none => Except.error CredError.invalidPayload) := by
  rw [decrypt_credentials_some profiles enc uid p c hp hb, hd,
    scanParse_last_brace xs ys hys]

set_option maxRecDepth 4000000 in
theorem claim_C3_witness :
    decrypt_credentials profiles1 envC3w "alice" =
      .ok (.obj (.cons [97] (.num 7) .nil)) := by
  have h := claim_C3_amended profiles1 envC3w "alice" profile1 cipherC3w
    [120] [34, 97, 34, 58, 32, 55, 125] rfl (by decide) (by decide) (by decide)
  rw [h]
  decide

/-! ## Claim C7: the error taxonomy the code realizes -/

set_option maxRecDepth 4000000 in
theorem claim_C7_counterexample :
    123 ∉ rsaDecrypt profile1 cipherC7c
    ∧ decrypt_credentials profiles1 envC7c "alice" = .error .invalidPayload
    ∧ decrypt_credentials profiles1 envC7c "alice" ≠ .error .noEmbeddedPayload
    ∧ decrypt_credentials profiles1 envC7b "alice" = .error .invalidPayload := by
  decide

set_option maxRecDepth 4000000 in
/-- C7 as amended: the code distinguishes three failure modes — a missing
profile (UnknownOwner), a base64 decode failure (MalformedEnvelope) and a
JSON parse failure (InvalidPayload) — and each arises on some input.  No
execution produces a distinct DecryptionFailed or NoEmbeddedPayload error:
raw RSA decryption cannot fail, and the no-brace case surfaces either as a
value or as the same JSON parse error as an invalid payload. -/
theorem claim_C7_amended :
    (∀ (profiles : String → Option Profile) (enc : List Nat) (uid : String),
      decrypt_credentials profiles enc uid ≠ .error .decryptionFailed
      ∧ decrypt_credentials profiles enc uid ≠ .error .noEmbeddedPayload)
    ∧ decrypt_credentials (fun _ => none) [] "alice" = .error .unknownOwner
    ∧ decrypt_credentials profiles1 [65] "alice" = .error .malformedEnvelope
    ∧ decrypt_credentials profiles1 envC7c "alice" = .error .invalidPayload := by
  refine ⟨?_, rfl, by decide, by decide⟩
  intro profiles enc uid
  rcases decrypt_result_cases profiles enc uid with h | h | h | ⟨j, h⟩ <;>
    rw [h] <;> exact ⟨by simp, by simp⟩

/-! ## Claim C8: decryption with the wrong owner's key -/

set_option maxRecDepth 4000000 in
theorem claim_C8_counterexample :
    envC8 = encrypt_credentials rsaN1 rsaE1 [] (.obj (.cons [117] (.str [112]) .nil))
    ∧ decrypt_credentials profiles1 envC8 "alice" =
        .ok (.obj (.cons [117] (.str [112]) .nil))
    ∧ decrypt_credentials profiles2 envC8 "alice" = .error .invalidPayload
    ∧ decrypt_credentials profiles2 envC8 "alice" ≠ .error .decryptionFailed := by
  decide

set_option maxRecDepth 4000000 in
/-- C8 as amended: decrypting a payload with a key other than the one it was
encrypted under does not produce a distinct cryptographic-failure error on
any input — raw RSA decryption always yields bytes, and the call's outcome
is whatever the boundary scan and JSON parse make of those garbage bytes: a
payload-format error (InvalidPayload, as at the exhibited input) or, for
unlucky garbage, a spurious value. -/
theorem claim_C8_amended :
    (∀ (profiles : String → Option Profile) (enc : List Nat) (uid : String),
      decrypt_credentials profiles enc uid ≠ .error .decryptionFailed)
    ∧ (∀ (p : Profile) (c : List Nat),
      (∃ j, scanParse (rsaDecrypt p c) = .ok j)
      ∨ scanParse (rsaDecrypt p c) = .error .invalidPayload)
    ∧ decrypt_credentials profiles2 envC8 "alice" = .error .invalidPayload := by
  refine ⟨?_, ?_, by decide⟩
  · intro profiles enc uid
    rcases decrypt_result_cases profiles enc uid with h | h | h | ⟨j, h⟩ <;>
      rw [h] <;> simp
  · intro p c
    exact scanParse_cases (rsaDecrypt p c)

/-! ## Claim C2: the encrypt/decrypt round trip -/

theorem dropWhile_append_cons {α : Type} (p : α → Bool) (xs : List α) (y : α)
    (ys : List α) (hy : p y = false) :
    (xs ++ y :: ys).dropWhile p = xs.dropWhile p ++ y :: ys := by
  induction xs with
  | nil =>
    rw [List.nil_append, List.dropWhile_cons, hy]
    simp
  | cons x xs ih =>
    rw [List.cons_append, List.dropWhile_cons, List.dropWhile_cons]
    cases hp : p x with
    | false => simp
    | true => simpa using ih

theorem okByte_lt_256 (b : Nat) (h : okByte b = true) : b < 256 := by
  simp only [okByte, Bool.and_eq_true, decide_eq_true_eq, bne_iff_ne] at h
  omega

mutual

/-- Every byte printed for a well-formed value is a genuine byte. -/
theorem dumps_lt_256 (J : Json) (hwf : wfJson J = true) :
    ∀ b ∈ dumps J, b < 256 := by
  cases J with
  | num n =>
    intro b hb
    rw [dumps] at hb
    have := natDigits_digit n b hb
    omega
  | str s =>
    intro b hb
    rw [wfJson, List.all_eq_true] at hwf
    rw [dumps] at hb
    rcases List.mem_append.mp hb with h | h
    · rcases List.mem_cons.mp h with h | h
      · omega
      · exact okByte_lt_256 b (hwf b h)
    · simp only [List.mem_singleton] at h
      omega
  | obj kvs =>
    intro b hb
    rw [wfJson] at hwf
    rw [dumps] at hb
    rcases List.mem_append.mp hb with h | h
    · rcases List.mem_cons.mp h with h | h
      · omega
      · exact dumpsMembers_lt_256 kvs hwf b h
    · simp only [List.mem_singleton] at h
      omega
termination_by sizeOf J

/-- Companion byte bound for member lists. -/
theorem dumpsMembers_lt_256 (kvs : Members) (hwf : wfMembers kvs = true) :
    ∀ b ∈ dumpsMembers kvs, b < 256 := by
  cases kvs with
  | nil =>
    intro b hb
    rw [dumpsMembers] at hb
    simp at hb
  | cons k v rest =>
    have hsplit : (k.all okByte = true) ∧ wfJson v = true ∧ wfMembers rest = true := by
      have h := hwf
      rw [wfMembers] at h
      simpa [Bool.and_eq_true, and_assoc] using h
    have hkb : ∀ b ∈ k, b < 256 := by
      intro b hb
      have h := hsplit.1
      rw [List.all_eq_true] at h
      exact okByte_lt_256 b (h b hb)
    cases rest with
    | nil =>
      intro b hb
      rw [dumpsMembers] at hb
      rcases List.mem_append.mp hb with h | h
      · rcases List.mem_cons.mp h with h | h
        · omega
        · rcases List.mem_append.mp h with h | h
          · rcases List.mem_append.mp h with h | h
            · exact hkb b h
            · simp only [List.mem_singleton] at h
              omega
          · simp only [List.mem_cons, List.not_mem_nil, or_false] at h
            omega
      · exact dumps_lt_256 v hsplit.2.1 b h
    | cons k2 v2 rest2 =>
      intro b hb
      rw [dumpsMembers] at hb
      rcases List.mem_append.mp hb with h | h
      · rcases List.mem_cons.mp h with h | h
        · omega
        · rcases List.mem_append.mp h with h | h
          · rcases List.mem_append.mp h with h | h
            · rcases List.mem_append.mp h with h | h
              · rcases List.mem_append.mp h with h | h
                · exact hkb b h
                · simp only [List.mem_singleton] at h
                  omega
              · simp only [List.mem_cons, List.not_mem_nil, or_false] at h
                omega
            · exact dumps_lt_256 v hsplit.2.1 b h
          · simp only [List.mem_cons, List.not_mem_nil, or_false] at h
            omega
      · exact dumpsMembers_lt_256 (.cons k2 v2 rest2) hsplit.2.2 b h
termination_by sizeOf kvs

end

set_option maxRecDepth 4000000 in
theorem claim_C2_counterexample :
    decrypt_credentials profiles1
      (encrypt_credentials rsaN1 rsaE1 [] (.obj (.cons [97] (.obj .nil) .nil)))
      "alice" = .error .invalidPayload
    ∧ decrypt_credentials profiles1
      (encrypt_credentials rsaN1 rsaE1 [] (.obj (.cons [97] (.obj .nil) .nil)))
      "alice" ≠ .ok (.obj (.cons [97] (.obj .nil) .nil)) := by
  decide

/-- C2 as amended: the round trip `decrypt(encrypt(J), owner) = J` holds for
every well-formed JSON object J whose serialization contains exactly one `{`
(no nested objects and no brace inside a string), every padding prefix of
non-`{` bytes prepended by the encoder, and every key pair that inverts raw
RSA on the padded message — but not for objects serializing with more than
one `{`, as the counterexample shows. -/
theorem claim_C2_amended (profiles : String → Option Profile) (uid : String)
    (n e d : Nat) (kvs : Members) (pad : List Nat)
    (hprof : profiles uid = some ⟨n, d⟩)
    (hwf : wfJson (.obj kvs) = true)
    (hone : (dumps (.obj kvs)).count 123 = 1)
    (hpad : ∀ b ∈ pad, b < 256 ∧ b ≠ 123)
    (hkey : powMod (powMod (bytes_to_long (pad ++ dumps (.obj kvs))) e n) d n
      = bytes_to_long (pad ++ dumps (.obj kvs))) :
    decrypt_credentials profiles (encrypt_credentials n e pad (.obj kvs)) uid
      = .ok (.obj kvs) := by
  have hbytes : ∀ b ∈ pad ++ dumps (.obj kvs), b < 256 := by
    intro b hb
    rcases List.mem_append.mp hb with h | h
    · exact (hpad b h).1
    · exact dumps_lt_256 (.obj kvs) hwf b h
  have henv : b64decode (encrypt_credentials n e pad (.obj kvs)) =
      some (long_to_bytes (powMod (bytes_to_long (pad ++ dumps (.obj kvs))) e n)) := by
    rw [encrypt_credentials]
    exact b64decode_b64encode _ (long_to_bytes_lt _)
  rw [decrypt_credentials_some profiles _ uid ⟨n, d⟩ _ hprof henv, rsaDecrypt,
    bytes_to_long_long_to_bytes, hkey, long_to_bytes_bytes_to_long _ hbytes]
  have ht : dumps (.obj kvs) = 123 :: (dumpsMembers kvs ++ [125]) := by
    rw [dumps, List.cons_append]
  have hnt : 123 ∉ dumpsMembers kvs ++ [125] := by
    rw [ht, List.count_cons_self] at hone
    rw [← List.count_eq_zero]
    omega
  rw [ht, dropWhile_append_cons _ pad 123 _ (by simp),
    scanParse_last_brace _ _ hnt, ← ht, loads_dumps _ hwf]

set_option maxRecDepth 4000000 in
theorem claim_C2_witness :
    decrypt_credentials profiles1
      (encrypt_credentials rsaN1 rsaE1 [120] (.obj (.cons [117] (.str [112]) .nil)))
      "alice" = .ok (.obj (.cons [117] (.str [112]) .nil)) :=
  claim_C2_amended profiles1 "alice" rsaN1 rsaE1 rsaD1
    (.cons [117] (.str [112]) .nil) [120] rfl (by decide) (by decide)
    (by decide) (by decide)
